import Mathlib

/-!
# Verification of `phonemizer/punctuation.py`

Shallow embedding of the `Punctuation` class: strings are `List Char`,
the compiled regular expression `\s*[<marks>]+\s*` is embedded as a
left-to-right maximal-munch scanner over the characters, and the methods
`remove`, `preserve`, `_preserve_line`, `restore` and `_restore_aux`
are translated function by function.  Python exceptions (`IndexError`
raised by `_restore_aux` on malformed input) become `Option`.

Modelling notes:
* `\s` (and the `str.strip()` whitespace set, which is identical) is
  the exact 29-code-point set Python uses on `str` patterns, `pySpace`;
* the `marks` setter interpolates the configuration characters verbatim
  into a character class `[<marks>]`, so `-`, `^`, `]`, `\` and the
  empty configuration have regex class semantics, not set-membership
  semantics.  `compileClass` models `re.compile` on the class body:
  `none` is `re.error` (empty body, body `^`, bad range), ranges `a-c`
  and leading `^` negation follow `re`; bodies containing `]` or `\`
  are left outside the model (`none`).  For a `literalClass` body —
  nonempty and free of the four metacharacters — the compiled matcher
  is exactly set membership `isMark`, and the scanner and everything
  built on it use `isMark`; claims about arbitrary alphabets therefore
  carry a `literalClass` hypothesis.
-/

set_option maxHeartbeats 1000000

namespace Punct

/-- The exact set of characters matched by Python's `\s` on `str`
patterns (and equally the set stripped by `str.strip()`): the 29 code
points 09–0D, 1C–1F, 20, 85, A0, 1680, 2000–200A, 2028, 2029, 202F,
205F and 3000. -/
def pySpace (c : Char) : Bool :=
  (0x09 ≤ c.val && c.val ≤ 0x0D) || (0x1C ≤ c.val && c.val ≤ 0x20) ||
  c.val == 0x85 || c.val == 0xA0 || c.val == 0x1680 ||
  (0x2000 ≤ c.val && c.val ≤ 0x200A) || c.val == 0x2028 || c.val == 0x2029 ||
  c.val == 0x202F || c.val == 0x205F || c.val == 0x3000

/-- Membership in the configured mark alphabet: the character class
`[<marks>]` built by the `marks` setter. -/
def isMark (m : List Char) (c : Char) : Bool := m.contains c

/-- A configuration alphabet whose characters are interpolated into
the class `[<marks>]` verbatim: nonempty and free of the class
metacharacters `-`, `^`, `]`, `\`.  For such a body the class means
plain set membership. -/
def literalClass (m : List Char) : Bool :=
  !m.isEmpty && m.all (fun c => !(c == '-' || c == '^' || c == ']' || c == '\\'))

/-- Items of a character-class body: each item a closed range (a
single character `a` standing for the range `a-a`).  `a-c` with
`a ≤ c` is a range; `z-a` is `re.error` ("bad character range"),
modelled `none`; a trailing or leading `-` is a literal. -/
def classItems : List Char → Option (List (Char × Char))
  | [] => some []
  | [a] => some [(a, a)]
  | [a, b] => some [(a, a), (b, b)]
  | a :: b :: c :: rest2 =>
    if b = '-' then
      if a ≤ c then (classItems rest2).map (fun l => (a, c) :: l) else none
    else (classItems (b :: c :: rest2)).map (fun l => (a, a) :: l)

/-- `re.compile` on the class `[<body>]`, as a character predicate.
An empty body and the body `^` are `re.error` ("unterminated character
set"); a leading `^` otherwise negates; bodies containing `]` or `\`
are outside this model and conservatively `none`. -/
def compileClass (body : List Char) : Option (Char → Bool) :=
  if body.contains ']' || body.contains '\\' then none
  else match body with
  | [] => none
  | a :: rest =>
    if a = '^' then
      match rest with
      | [] => none
      | _ :: _ => (classItems rest).map (fun items c =>
          !(items.any (fun r => decide (r.1 ≤ c) && decide (c ≤ r.2))))
    else (classItems (a :: rest)).map (fun items c =>
        items.any (fun r => decide (r.1 ≤ c) && decide (c ≤ r.2)))

/-- Whether the compiled class matches `c` (`false` when compilation
fails). -/
def classMatches (body : List Char) (c : Char) : Bool :=
  match compileClass body with
  | some f => f c
  | none => false

/-- Convenience: view a Lean string literal as a line of characters. -/
def toL (s : String) : List Char := s.toList

/-- The default punctuation marks `_DEFAULT_MARKS`. -/
def defaultMarks : List Char := toL ";:,.!?¡¿—…\"«»“”"

/-- On a body without `-` every item is a singleton range. -/
theorem classItems_literal (m : List Char) (h : ∀ c ∈ m, c ≠ '-') :
    classItems m = some (m.map (fun c => (c, c))) := by
  induction m with
  | nil => rfl
  | cons a rest ih =>
    cases rest with
    | nil => rfl
    | cons b tail =>
      cases tail with
      | nil => rfl
      | cons c rest2 =>
        have hb : b ≠ '-' := h b (by simp)
        rw [show classItems (a :: b :: c :: rest2) =
            (if b = '-' then
              (if a ≤ c then (classItems rest2).map (fun l => (a, c) :: l)
               else none)
             else (classItems (b :: c :: rest2)).map
               (fun l => (a, a) :: l)) from rfl]
        rw [if_neg hb, ih (fun x hx => h x (List.mem_cons_of_mem a hx))]
        rfl

/-- The range test over singleton ranges is plain membership. -/
theorem anyPairs_contains (c : Char) (l : List Char) :
    ((l.map (fun x => (x, x))).any
      (fun r => decide (r.1 ≤ c) && decide (c ≤ r.2))) = l.contains c := by
  induction l with
  | nil => rfl
  | cons a rest ih =>
    simp only [List.map_cons, List.any_cons, ih, List.contains_cons]
    congr 1
    by_cases hca : c = a
    · subst hca; simp
    · have h2 : (c == a) = false := beq_eq_false_iff_ne.mpr hca
      rw [h2]
      cases h3 : decide (a ≤ c) && decide (c ≤ a) with
      | false => rfl
      | true =>
        simp only [Bool.and_eq_true, decide_eq_true_eq] at h3
        exact absurd (Char.le_antisymm h3.2 h3.1) hca

/-- For a literal body the compiled class is exactly set membership in
the configured alphabet. -/
theorem compileClass_literal (m : List Char) (h : literalClass m = true) :
    ∃ f, compileClass m = some f ∧ ∀ c, f c = isMark m c := by
  rw [literalClass] at h
  simp only [Bool.and_eq_true, Bool.not_eq_eq_eq_not, Bool.not_false,
    List.all_eq_true, Bool.or_eq_true, beq_iff_eq, Bool.not_true,
    Bool.not_eq_true, List.isEmpty_iff] at h
  obtain ⟨hne, hmet⟩ := h
  have hmet' : ∀ c ∈ m, c ≠ '-' ∧ c ≠ '^' ∧ c ≠ ']' ∧ c ≠ '\\' := by
    intro c hc
    have := hmet c hc
    simp only [Bool.or_eq_false_iff, beq_eq_false_iff_ne] at this
    exact ⟨this.1.1.1, this.1.1.2, this.1.2, this.2⟩
  have hnb : m.contains ']' = false := by
    cases hcb : m.contains ']' with
    | false => rfl
    | true => exact absurd (List.elem_iff.mp hcb) (fun hm => (hmet' _ hm).2.2.1 rfl)
  have hns : m.contains '\\' = false := by
    cases hcb : m.contains '\\' with
    | false => rfl
    | true => exact absurd (List.elem_iff.mp hcb) (fun hm => (hmet' _ hm).2.2.2 rfl)
  obtain ⟨a, rest, rfl⟩ : ∃ a rest, m = a :: rest := by
    cases m with
    | nil => simp at hne
    | cons a rest => exact ⟨a, rest, rfl⟩
  have ha : a ≠ '^' := (hmet' a (by simp)).2.1
  have hitems := classItems_literal (a :: rest) (fun c hc => (hmet' c hc).1)
  refine ⟨fun c => ((a :: rest).map (fun x => (x, x))).any
      (fun r => decide (r.1 ≤ c) && decide (c ≤ r.2)), ?_, ?_⟩
  · rw [compileClass.eq_def, hnb, hns]
    simp only [Bool.or_self, Bool.false_eq_true, if_false, if_neg ha, hitems]
    rfl
  · intro c
    dsimp only
    rw [isMark]
    exact anyPairs_contains c (a :: rest)

/-- One token of a scanned line: plain text or one maximal match of
`\s*[<marks>]+\s*`. -/
inductive Tok where
  | txt (s : List Char) : Tok
  | mat (s : List Char) : Tok
deriving DecidableEq, Repr

/-- Scanner state: outside a match with pending whitespace, inside the
`[<marks>]+` part, or inside the trailing `\s*` part. -/
inductive ScanSt where
  | idle (pend : List Char) : ScanSt
  | run (acc : List Char) : ScanSt
  | trail (acc : List Char) : ScanSt
deriving DecidableEq, Repr

/-- Characters held by a scanner state. -/
def stChars : ScanSt → List Char
  | ScanSt.idle p => p
  | ScanSt.run a => a
  | ScanSt.trail a => a

/-- Left-to-right scanner producing the non-overlapping maximal matches of
`\s*[<marks>]+\s*` interleaved with the unmatched text, exactly as
`re.finditer` walks a line.  Pending whitespace in `idle` becomes the
leading `\s*` of a match only when a mark follows; whitespace after a run
is consumed greedily into the match (`trail`), so a mark following it
starts a new match with no leading whitespace. -/
def scanAux (m : List Char) : ScanSt → List Char → List Tok
  | ScanSt.idle p, [] => [Tok.txt p]
  | ScanSt.run a, [] => [Tok.mat a]
  | ScanSt.trail a, [] => [Tok.mat a]
  | ScanSt.idle p, c :: rest =>
    if isMark m c then scanAux m (ScanSt.run (p ++ [c])) rest
    else if pySpace c then scanAux m (ScanSt.idle (p ++ [c])) rest
    else Tok.txt (p ++ [c]) :: scanAux m (ScanSt.idle []) rest
  | ScanSt.run a, c :: rest =>
    if isMark m c then scanAux m (ScanSt.run (a ++ [c])) rest
    else if pySpace c then scanAux m (ScanSt.trail (a ++ [c])) rest
    else Tok.mat a :: Tok.txt [c] :: scanAux m (ScanSt.idle []) rest
  | ScanSt.trail a, c :: rest =>
    if isMark m c then Tok.mat a :: scanAux m (ScanSt.run [c]) rest
    else if pySpace c then scanAux m (ScanSt.trail (a ++ [c])) rest
    else Tok.mat a :: Tok.txt [c] :: scanAux m (ScanSt.idle []) rest

/-- Tokens of one line. -/
def scanLine (m : List Char) (line : List Char) : List Tok :=
  scanAux m (ScanSt.idle []) line

/-- The list of match texts, in order: `[m.group() for m in re.finditer(...)]`. -/
def findMatches (m : List Char) (line : List Char) : List (List Char) :=
  (scanLine m line).filterMap (fun t => match t with
    | Tok.mat s => some s
    | Tok.txt _ => none)

/-- `re.sub(marks_re, ' ', line)`: each maximal match replaced by one space. -/
def subOne (m : List Char) (line : List Char) : List Char :=
  ((scanLine m line).map (fun t => match t with
    | Tok.txt s => s
    | Tok.mat _ => [' '])).flatten

/-- Python `str.strip()`: drop leading and trailing whitespace. -/
def pyStrip (s : List Char) : List Char :=
  ((s.dropWhile pySpace).reverse.dropWhile pySpace).reverse

/-- `Punctuation.remove` on one line: `re.sub(marks_re, ' ', line).strip()`. -/
def pRemoveLine (m : List Char) (line : List Char) : List Char :=
  pyStrip (subOne m line)

/-- `Punctuation.remove` on a list of lines. -/
def pRemove (m : List Char) (text : List (List Char)) : List (List Char) :=
  text.map (pRemoveLine m)

/-- A mark's position within its line: begin `B`, end `E`, alone `A`,
in the middle `I` — the `'B' 'E' 'A' 'I'` tags of the source. -/
inductive Pos where
  | B : Pos
  | E : Pos
  | A : Pos
  | I : Pos
deriving DecidableEq, Repr

/-- The `_mark_index` named tuple: `(index, mark, position)`. -/
structure PMark where
  idx : Nat
  mark : List Char
  pos : Pos
deriving DecidableEq, Repr

/-- `line.startswith(g)`. -/
def leadsWith : List Char → List Char → Bool
  | [], _ => true
  | _ :: _, [] => false
  | a :: as, b :: bs => a == b && leadsWith as bs

/-- `line.endswith(g)`. -/
def trailsWith (g l : List Char) : Bool := leadsWith g.reverse l.reverse

/-- `split = line.split(sep); (split[0], sep.join(split[1:]))`: the text
before the first occurrence of `sep` and the text after it (the whole
line and `[]` when `sep` does not occur). -/
def splitFirst (sep : List Char) : List Char → List Char × List Char
  | [] => ([], [])
  | c :: rest =>
    if leadsWith sep (c :: rest) then ([], (c :: rest).drop sep.length)
    else
      let p := splitFirst sep rest
      (c :: p.1, p.2)

/-- The chunk-splitting loop of `_preserve_line`: successively cut the
line at each mark text; the final remainder is appended as a last chunk
(`preserved_line + [line]`). -/
def pSplitLoop : List (List Char) → List Char → List (List Char)
  | [], line => [line]
  | g :: gs, line =>
    let p := splitFirst g line
    p.1 :: pSplitLoop gs p.2

/-- `map` with the position of each element, the model of `enumerate`. -/
def idxMap (f : Nat → List Char → PMark) : Nat → List (List Char) → List PMark
  | _, [] => []
  | i, g :: gs => f i g :: idxMap f (i + 1) gs

/-- Position classification of the match at index `i` out of `k`:
`'I'` by default, `'B'` for the first match when the line starts with it,
else `'E'` for the last match when the line ends with it. -/
def pPos (line : List Char) (k i : Nat) (g : List Char) : Pos :=
  if i = 0 ∧ leadsWith g line then Pos.B
  else if i = k - 1 ∧ trailsWith g line then Pos.E
  else Pos.I

/-- `Punctuation._preserve_line(line, n)`: the per-line chunks (empty ones
not yet filtered) and mark records. -/
def pLine (m : List Char) (line : List Char) (n : Nat) :
    List (List Char) × List PMark :=
  match findMatches m line with
  | [] => ([line], [])
  | g :: gs =>
    if gs = [] ∧ g = line then ([], [⟨n, line, Pos.A⟩])
    else
      let marks := idxMap (fun i gi => ⟨n, gi, pPos line (g :: gs).length i gi⟩)
        0 (g :: gs)
      (pSplitLoop (marks.map (fun mk => mk.mark)) line, marks)

/-- The enumeration loop of `Punctuation.preserve`, starting at line
index `n`; chunks are concatenated unfiltered. -/
def pPreserveAux (m : List Char) : Nat → List (List Char) →
    List (List Char) × List PMark
  | _, [] => ([], [])
  | n, l :: ls =>
    let p := pLine m l n
    let q := pPreserveAux m (n + 1) ls
    (p.1 ++ q.1, p.2 ++ q.2)

/-- `Punctuation.preserve`: per-line decomposition, then the empty chunks
are filtered out (`[line for line in preserved_text if line]`). -/
def pPreserve (m : List Char) (text : List (List Char)) :
    List (List Char) × List PMark :=
  let p := pPreserveAux m 0 text
  (p.1.filter (fun c => !c.isEmpty), p.2)

/-- `Punctuation._restore_aux(text, marks, n)`.  Python list indexing
errors (`text[0]`/`text[1]` on a too-short list) become `none`; every
recursive failure propagates, so there is no partial output. -/
def pRestoreAux : List (List Char) → List PMark → Nat → Option (List (List Char))
  | text, [], _ => some text
  | text, mk :: ms, n =>
    if mk.idx = n then
      match mk.pos, text with
      | Pos.B, t0 :: rest => pRestoreAux ((mk.mark ++ t0) :: rest) ms n
      | Pos.E, t0 :: rest => (pRestoreAux rest ms (n + 1)).map (fun r => (t0 ++ mk.mark) :: r)
      | Pos.A, t => (pRestoreAux t ms (n + 1)).map (fun r => mk.mark :: r)
      | Pos.I, t0 :: t1 :: rest => pRestoreAux ((t0 ++ mk.mark ++ t1) :: rest) ms n
      | _, _ => none
    else
      match text with
      | t0 :: rest => (pRestoreAux rest (mk :: ms) (n + 1)).map (fun r => t0 :: r)
      | [] => none
termination_by text marks _ => (marks.length, text.length)

/-- `Punctuation.restore`. -/
def pRestore (text : List (List Char)) (marks : List PMark) :
    Option (List (List Char)) :=
  pRestoreAux text marks 0

/-! ## Structure of a scanned line

The scanner decomposes a line into alternating text and match tokens.
`tokPairs` regroups a token list as a leading chunk `c0` followed by
pairs `(gᵢ, cᵢ)` of a match and the chunk after it, so that the line is
`c0 ++ g1 ++ c1 ++ … ++ gk ++ ck`. -/

/-- Characters of one token. -/
def tokChars : Tok → List Char
  | Tok.txt s => s
  | Tok.mat s => s

/-- Concatenation of all the token characters. -/
def flat (T : List Tok) : List Char := (T.map tokChars).flatten

/-- No character of `s` is a configured mark. -/
def markFree (m : List Char) (s : List Char) : Bool :=
  s.all (fun c => !(isMark m c))

/-- Leading chunk and (match, following chunk) pairs of a token list. -/
def tokPairs : List Tok → List Char × List (List Char × List Char)
  | [] => ([], [])
  | Tok.txt s :: T =>
    let p := tokPairs T
    (s ++ p.1, p.2)
  | Tok.mat g :: T =>
    let p := tokPairs T
    ([], (g, p.1) :: p.2)

/-- Reassembling a leading chunk and (match, chunk) pairs into a line. -/
def glue (c0 : List Char) (ps : List (List Char × List Char)) : List Char :=
  c0 ++ (ps.map (fun p => p.1 ++ p.2)).flatten

/-- The tail of `glue` without a leading chunk. -/
def glueTail (ps : List (List Char × List Char)) : List Char :=
  (ps.map (fun p => p.1 ++ p.2)).flatten

theorem glue_eq (c0 : List Char) (ps : List (List Char × List Char)) :
    glue c0 ps = c0 ++ glueTail ps := rfl

theorem glueTail_cons (p : List Char × List Char)
    (ps : List (List Char × List Char)) :
    glueTail (p :: ps) = p.1 ++ p.2 ++ glueTail ps := by
  simp [glueTail, List.append_assoc]

theorem glueTail_append (ps qs : List (List Char × List Char)) :
    glueTail (ps ++ qs) = glueTail ps ++ glueTail qs := by
  simp [glueTail]

/-! ## `leadsWith` and `splitFirst` -/

theorem leadsWith_iff (g l : List Char) :
    leadsWith g l = true ↔ ∃ t, l = g ++ t := by
  induction g generalizing l with
  | nil => simp [leadsWith]
  | cons a as ih =>
    cases l with
    | nil => simp [leadsWith]
    | cons b bs =>
      simp only [leadsWith, Bool.and_eq_true, beq_iff_eq, ih]
      constructor
      · rintro ⟨rfl, t, rfl⟩; exact ⟨t, rfl⟩
      · rintro ⟨t, ht⟩
        cases ht
        exact ⟨rfl, t, rfl⟩

theorem leadsWith_self_append (g b : List Char) :
    leadsWith g (g ++ b) = true :=
  (leadsWith_iff g (g ++ b)).mpr ⟨b, rfl⟩

theorem takeWhile_append_of_all {p : Char → Bool} {a : List Char}
    (b : List Char) (h : a.all p = true) :
    (a ++ b).takeWhile p = a ++ b.takeWhile p := by
  induction a with
  | nil => simp
  | cons c cs ih =>
    simp only [List.all_cons, Bool.and_eq_true] at h
    simp [List.takeWhile_cons, h.1, ih h.2]

theorem takeWhile_append_of_any {p : Char → Bool} {g : List Char}
    (b : List Char) (h : g.any (fun c => !(p c)) = true) :
    (g ++ b).takeWhile p = g.takeWhile p := by
  induction g with
  | nil => simp at h
  | cons c cs ih =>
    simp only [List.any_cons, Bool.or_eq_true] at h
    by_cases hc : p c
    · have : cs.any (fun c => !(p c)) = true := by
        rcases h with h | h
        · simp [hc] at h
        · exact h
      simp [List.takeWhile_cons, hc, ih this]
    · simp [List.takeWhile_cons, hc]

/-- If `a` is free of marks and `g` contains a mark then `a ++ g ++ b`
can start with `g` only when `a` is empty. -/
theorem leadsWith_markFree {m : List Char} {a g b : List Char}
    (ha : markFree m a = true) (hg : g.any (isMark m) = true)
    (h : leadsWith g (a ++ g ++ b) = true) : a = [] := by
  rcases (leadsWith_iff _ _).mp h with ⟨t, ht⟩
  have hg2 : g.any (fun c => !((fun c => !(isMark m c)) c)) = true := by
    simpa using hg
  have h1 : ((a ++ g ++ b).takeWhile (fun c => !(isMark m c))).length
      = a.length + (g.takeWhile (fun c => !(isMark m c))).length := by
    rw [List.append_assoc, takeWhile_append_of_all _ ha,
      takeWhile_append_of_any _ hg2]
    simp
  have h2 : ((g ++ t).takeWhile (fun c => !(isMark m c))).length
      = (g.takeWhile (fun c => !(isMark m c))).length := by
    rw [takeWhile_append_of_any _ hg2]
  rw [ht, h2] at h1
  exact List.length_eq_zero.mp (by omega)

/-- Central alignment fact: splitting `a ++ g ++ b` at the first
occurrence of `g` cuts exactly at the displayed occurrence, provided the
text before it has no mark and `g` has one. -/
theorem splitFirst_align {m : List Char} {a g b : List Char}
    (ha : markFree m a = true) (hg : g.any (isMark m) = true) :
    splitFirst g (a ++ g ++ b) = (a, b) := by
  induction a with
  | nil =>
    have hne : g ≠ [] := by
      intro h; rw [h] at hg; simp at hg
    rcases g with _ | ⟨c, g'⟩
    · exact absurd rfl hne
    · show splitFirst (c :: g') ((c :: g') ++ b) = ([], b)
      rw [show (c :: g') ++ b = c :: (g' ++ b) from rfl]
      rw [splitFirst]
      rw [show c :: (g' ++ b) = (c :: g') ++ b from rfl]
      rw [leadsWith_self_append]
      simp [List.drop_left]
  | cons c a' ih =>
    have ha' : markFree m a' = true := by
      simp only [markFree, List.all_cons, Bool.and_eq_true] at ha
      exact ha.2
    have hlw : leadsWith g ((c :: a') ++ g ++ b) = false := by
      cases h : leadsWith g ((c :: a') ++ g ++ b) with
      | false => rfl
      | true =>
        have := leadsWith_markFree ha hg h
        simp at this
    rw [show (c :: a') ++ g ++ b = c :: (a' ++ g ++ b) from rfl, splitFirst]
    rw [show c :: (a' ++ g ++ b) = (c :: a') ++ g ++ b from rfl, hlw]
    have hih := ih ha'
    rw [List.append_assoc] at hih
    simp [hih]

/-- The split loop recovers the chunks of the decomposition. -/
theorem pSplitLoop_align {m : List Char} :
    ∀ (ps : List (List Char × List Char)) (c0 : List Char),
    markFree m c0 = true →
    (∀ p ∈ ps, p.1.any (isMark m) = true ∧ markFree m p.2 = true) →
    pSplitLoop (ps.map Prod.fst) (glue c0 ps) = c0 :: ps.map Prod.snd
  | [], c0, _, _ => by simp [pSplitLoop, glue]
  | (g, c) :: ps, c0, hc0, hps => by
    have hg : g.any (isMark m) = true := (hps (g, c) (by simp)).1
    have hc : markFree m c = true := (hps (g, c) (by simp)).2
    have hrest : ∀ p ∈ ps, p.1.any (isMark m) = true ∧ markFree m p.2 = true :=
      fun p hp => hps p (by simp [hp])
    have hglue : glue c0 ((g, c) :: ps) = c0 ++ g ++ glue c ps := by
      simp [glue, List.append_assoc]
    simp only [List.map_cons, pSplitLoop, hglue]
    rw [splitFirst_align hc0 hg]
    simp [pSplitLoop_align ps c hc hrest]

/-! ## Scanner invariants -/

/-- Well-formedness of one token: text is mark-free, a match holds a mark. -/
def tokOK (m : List Char) : Tok → Bool
  | Tok.txt s => markFree m s
  | Tok.mat g => g.any (isMark m)

/-- Well-formedness of a scanner state. -/
def stOK (m : List Char) : ScanSt → Bool
  | ScanSt.idle p => markFree m p
  | ScanSt.run a => a.any (isMark m)
  | ScanSt.trail a => a.any (isMark m)

theorem markFree_append {m : List Char} {a b : List Char}
    (ha : markFree m a = true) (hb : markFree m b = true) :
    markFree m (a ++ b) = true := by
  simp only [markFree, List.all_append, Bool.and_eq_true]
  exact ⟨ha, hb⟩

/-- The scanner only emits well-formed tokens. -/
theorem scanAux_tokOK (m : List Char) :
    ∀ (s : List Char) (st : ScanSt), stOK m st = true →
    ∀ t ∈ scanAux m st s, tokOK m t = true
  | [], ScanSt.idle p, h, t, ht => by
    simp only [scanAux, List.mem_singleton] at ht
    subst ht; exact h
  | [], ScanSt.run a, h, t, ht => by
    simp only [scanAux, List.mem_singleton] at ht
    subst ht; exact h
  | [], ScanSt.trail a, h, t, ht => by
    simp only [scanAux, List.mem_singleton] at ht
    subst ht; exact h
  | c :: rest, ScanSt.idle p, h, t, ht => by
    rw [scanAux] at ht
    by_cases hm : isMark m c
    · rw [if_pos hm] at ht
      refine scanAux_tokOK m rest _ ?_ t ht
      simp [stOK, List.any_append, hm]
    · rw [if_neg hm] at ht
      by_cases hs : pySpace c
      · rw [if_pos hs] at ht
        refine scanAux_tokOK m rest _ ?_ t ht
        have : markFree m [c] = true := by simp [markFree, hm]
        exact markFree_append h this
      · rw [if_neg hs] at ht
        rcases List.mem_cons.mp ht with rfl | ht2
        · have : markFree m [c] = true := by simp [markFree, hm]
          exact markFree_append h this
        · exact scanAux_tokOK m rest _ (by simp [stOK, markFree]) t ht2
  | c :: rest, ScanSt.run a, h, t, ht => by
    rw [scanAux] at ht
    by_cases hm : isMark m c
    · rw [if_pos hm] at ht
      refine scanAux_tokOK m rest _ ?_ t ht
      simp [stOK, List.any_append, hm]
    · rw [if_neg hm] at ht
      by_cases hs : pySpace c
      · rw [if_pos hs] at ht
        refine scanAux_tokOK m rest _ ?_ t ht
        simp only [stOK] at h ⊢
        simp [List.any_append, h]
      · rw [if_neg hs] at ht
        rcases List.mem_cons.mp ht with rfl | ht2
        · exact h
        · rcases List.mem_cons.mp ht2 with rfl | ht3
          · simp [tokOK, markFree, hm]
          · exact scanAux_tokOK m rest _ (by simp [stOK, markFree]) t ht3
  | c :: rest, ScanSt.trail a, h, t, ht => by
    rw [scanAux] at ht
    by_cases hm : isMark m c
    · rw [if_pos hm] at ht
      rcases List.mem_cons.mp ht with rfl | ht2
      · exact h
      · refine scanAux_tokOK m rest _ ?_ t ht2
        simp [stOK, hm]
    · rw [if_neg hm] at ht
      by_cases hs : pySpace c
      · rw [if_pos hs] at ht
        refine scanAux_tokOK m rest _ ?_ t ht
        simp only [stOK] at h ⊢
        simp [List.any_append, h]
      · rw [if_neg hs] at ht
        rcases List.mem_cons.mp ht with rfl | ht2
        · exact h
        · rcases List.mem_cons.mp ht2 with rfl | ht3
          · simp [tokOK, markFree, hm]
          · exact scanAux_tokOK m rest _ (by simp [stOK, markFree]) t ht3

/-- The scanner loses no characters. -/
theorem scanAux_flat (m : List Char) :
    ∀ (s : List Char) (st : ScanSt),
    flat (scanAux m st s) = stChars st ++ s
  | [], ScanSt.idle p => by simp [scanAux, flat, tokChars, stChars]
  | [], ScanSt.run a => by simp [scanAux, flat, tokChars, stChars]
  | [], ScanSt.trail a => by simp [scanAux, flat, tokChars, stChars]
  | c :: rest, ScanSt.idle p => by
    rw [scanAux]
    by_cases hm : isMark m c
    · rw [if_pos hm, scanAux_flat m rest]
      simp [stChars]
    · rw [if_neg hm]
      by_cases hs : pySpace c
      · rw [if_pos hs, scanAux_flat m rest]
        simp [stChars]
      · rw [if_neg hs]
        simp only [flat, List.map_cons, List.flatten_cons, tokChars]
        have := scanAux_flat m rest (ScanSt.idle [])
        simp only [flat] at this
        rw [this]
        simp [stChars]
  | c :: rest, ScanSt.run a => by
    rw [scanAux]
    by_cases hm : isMark m c
    · rw [if_pos hm, scanAux_flat m rest]
      simp [stChars]
    · rw [if_neg hm]
      by_cases hs : pySpace c
      · rw [if_pos hs, scanAux_flat m rest]
        simp [stChars]
      · rw [if_neg hs]
        simp only [flat, List.map_cons, List.flatten_cons, tokChars]
        have := scanAux_flat m rest (ScanSt.idle [])
        simp only [flat] at this
        rw [this]
        simp [stChars]
  | c :: rest, ScanSt.trail a => by
    rw [scanAux]
    by_cases hm : isMark m c
    · rw [if_pos hm]
      simp only [flat, List.map_cons, List.flatten_cons, tokChars]
      have := scanAux_flat m rest (ScanSt.run [c])
      simp only [flat] at this
      rw [this]
      simp [stChars]
    · rw [if_neg hm]
      by_cases hs : pySpace c
      · rw [if_pos hs, scanAux_flat m rest]
        simp [stChars]
      · rw [if_neg hs]
        simp only [flat, List.map_cons, List.flatten_cons, tokChars]
        have := scanAux_flat m rest (ScanSt.idle [])
        simp only [flat] at this
        rw [this]
        simp [stChars]

theorem scanLine_flat (m : List Char) (line : List Char) :
    flat (scanLine m line) = line := by
  rw [scanLine, scanAux_flat]
  simp [stChars]

/-! ## `tokPairs` facts -/

theorem tokPairs_glue : ∀ T : List Tok,
    glue (tokPairs T).1 (tokPairs T).2 = flat T
  | [] => by simp [tokPairs, glue, glueTail, flat]
  | Tok.txt s :: T => by
    have := tokPairs_glue T
    simp only [tokPairs, glue] at this ⊢
    simp only [flat, List.map_cons, List.flatten_cons, tokChars]
    rw [List.append_assoc, this]
    simp [flat]
  | Tok.mat g :: T => by
    have := tokPairs_glue T
    simp only [tokPairs, glue] at this ⊢
    simp only [flat, List.map_cons, List.flatten_cons, tokChars]
    simp only [List.map_cons, List.flatten_cons, List.nil_append]
    rw [List.append_assoc, this]
    simp [flat]

theorem tokPairs_fst : ∀ T : List Tok,
    (tokPairs T).2.map Prod.fst =
      T.filterMap (fun t => match t with
        | Tok.mat s => some s
        | Tok.txt _ => none)
  | [] => by simp [tokPairs]
  | Tok.txt s :: T => by
    simp only [tokPairs, List.filterMap_cons]
    exact tokPairs_fst T
  | Tok.mat g :: T => by
    simp only [tokPairs, List.filterMap_cons, List.map_cons]
    rw [tokPairs_fst T]

theorem tokPairs_ok {m : List Char} : ∀ T : List Tok,
    (∀ t ∈ T, tokOK m t = true) →
    markFree m (tokPairs T).1 = true ∧
      ∀ p ∈ (tokPairs T).2, p.1.any (isMark m) = true ∧ markFree m p.2 = true
  | [], _ => by simp [tokPairs, markFree]
  | Tok.txt s :: T, h => by
    have hs : markFree m s = true := h (Tok.txt s) (by simp)
    have ih := tokPairs_ok T (fun t ht => h t (by simp [ht]))
    simp only [tokPairs]
    exact ⟨markFree_append hs ih.1, ih.2⟩
  | Tok.mat g :: T, h => by
    have hg : g.any (isMark m) = true := h (Tok.mat g) (by simp)
    have ih := tokPairs_ok T (fun t ht => h t (by simp [ht]))
    simp only [tokPairs]
    refine ⟨by simp [markFree], ?_⟩
    intro p hp
    rcases List.mem_cons.mp hp with rfl | hp2
    · exact ⟨hg, ih.1⟩
    · exact ih.2 p hp2

/-- The (match, chunk) pairs of a line. -/
def linePairs (m : List Char) (line : List Char) :
    List Char × List (List Char × List Char) :=
  tokPairs (scanLine m line)

theorem linePairs_glue (m : List Char) (line : List Char) :
    glue (linePairs m line).1 (linePairs m line).2 = line := by
  rw [linePairs, tokPairs_glue, scanLine_flat]

theorem linePairs_matches (m : List Char) (line : List Char) :
    (linePairs m line).2.map Prod.fst = findMatches m line := by
  rw [linePairs, tokPairs_fst, findMatches]

theorem linePairs_ok (m : List Char) (line : List Char) :
    markFree m (linePairs m line).1 = true ∧
      ∀ p ∈ (linePairs m line).2,
        p.1.any (isMark m) = true ∧ markFree m p.2 = true := by
  refine tokPairs_ok _ ?_
  intro t ht
  exact scanAux_tokOK m line (ScanSt.idle []) (by simp [stOK, markFree]) t ht

/-! ## Step equations of `_restore_aux` -/

theorem restore_nil (text : List (List Char)) (n : Nat) :
    pRestoreAux text [] n = some text := by
  conv_lhs => rw [pRestoreAux.eq_def]

theorem restore_B (t0 g : List Char) (rest : List (List Char))
    (ms : List PMark) (n : Nat) :
    pRestoreAux (t0 :: rest) (⟨n, g, Pos.B⟩ :: ms) n =
      pRestoreAux ((g ++ t0) :: rest) ms n := by
  conv_lhs => rw [pRestoreAux.eq_def]
  simp

theorem restore_E (t0 g : List Char) (rest : List (List Char))
    (ms : List PMark) (n : Nat) :
    pRestoreAux (t0 :: rest) (⟨n, g, Pos.E⟩ :: ms) n =
      (pRestoreAux rest ms (n + 1)).map (fun r => (t0 ++ g) :: r) := by
  conv_lhs => rw [pRestoreAux.eq_def]
  simp

theorem restore_A (g : List Char) (text : List (List Char))
    (ms : List PMark) (n : Nat) :
    pRestoreAux text (⟨n, g, Pos.A⟩ :: ms) n =
      (pRestoreAux text ms (n + 1)).map (fun r => g :: r) := by
  conv_lhs => rw [pRestoreAux.eq_def]
  simp

theorem restore_I (t0 t1 g : List Char) (rest : List (List Char))
    (ms : List PMark) (n : Nat) :
    pRestoreAux (t0 :: t1 :: rest) (⟨n, g, Pos.I⟩ :: ms) n =
      pRestoreAux ((t0 ++ g ++ t1) :: rest) ms n := by
  conv_lhs => rw [pRestoreAux.eq_def]
  simp

theorem restore_skip (t0 : List Char) (rest : List (List Char))
    (mk : PMark) (ms : List PMark) (n : Nat) (h : mk.idx ≠ n) :
    pRestoreAux (t0 :: rest) (mk :: ms) n =
      (pRestoreAux rest (mk :: ms) (n + 1)).map (fun r => t0 :: r) := by
  conv_lhs => rw [pRestoreAux.eq_def]
  simp [h]

theorem restore_stuck (mk : PMark) (ms : List PMark) (n : Nat)
    (h : mk.idx ≠ n) :
    pRestoreAux [] (mk :: ms) n = none := by
  conv_lhs => rw [pRestoreAux.eq_def]
  simp [h]

/-- The chain of `'I'` marks of one line merges the chunks back into one
front chunk. -/
theorem restore_ichain (n : Nat) :
    ∀ (ps : List (List Char × List Char)) (front : List Char)
      (C : List (List Char)) (M : List PMark),
    pRestoreAux (front :: (ps.map Prod.snd ++ C))
        (ps.map (fun p => ⟨n, p.1, Pos.I⟩) ++ M) n =
      pRestoreAux ((front ++ glueTail ps) :: C) M n
  | [], front, C, M => by simp [glueTail]
  | (g, c) :: ps, front, C, M => by
    simp only [List.map_cons, List.cons_append, restore_I]
    rw [restore_ichain n ps (front ++ g ++ c) C M]
    simp [glueTail_cons, List.append_assoc]

/-- When every pending mark belongs to a later line, the front chunk is
emitted as one finished line. -/
theorem restore_finish (front : List Char) (C : List (List Char))
    (M : List PMark) (n : Nat) (h : ∀ mk ∈ M, n < mk.idx) :
    pRestoreAux (front :: C) M n =
      (pRestoreAux C M (n + 1)).map (fun r => front :: r) := by
  cases M with
  | nil => simp [restore_nil]
  | cons mk ms =>
    have : mk.idx ≠ n := by
      have := h mk (by simp)
      omega
    exact restore_skip front C mk ms n this

/-! ## Boundary classification versus chunk emptiness -/

theorem markFree_reverse {m : List Char} (s : List Char) :
    markFree m s.reverse = markFree m s := by
  simp [markFree, List.all_reverse]

theorem trailsWith_append_self (pre g : List Char) :
    trailsWith g (pre ++ g) = true := by
  rw [trailsWith, List.reverse_append]
  exact leadsWith_self_append _ _

/-- A line starts with its first match iff the chunk before it is empty. -/
theorem leads_iff_nil {m : List Char} {c0 g rest : List Char}
    (hc0 : markFree m c0 = true) (hg : g.any (isMark m) = true) :
    leadsWith g (c0 ++ g ++ rest) = true ↔ c0 = [] := by
  constructor
  · exact fun h => leadsWith_markFree hc0 hg h
  · rintro rfl
    exact leadsWith_self_append _ _

/-- A line ends with its last match iff the chunk after it is empty. -/
theorem trails_iff_nil {m : List Char} {pre g ck : List Char}
    (hck : markFree m ck = true) (hg : g.any (isMark m) = true) :
    trailsWith g (pre ++ g ++ ck) = true ↔ ck = [] := by
  constructor
  · intro h
    rw [trailsWith, List.append_assoc, List.reverse_append,
      List.reverse_append] at h
    have := @leadsWith_markFree m ck.reverse g.reverse pre.reverse
      (by rw [markFree_reverse]; exact hck)
      (by rw [List.any_reverse]; exact hg) h
    have : ck = [] := by
      have h2 := congrArg List.reverse this
      simpa using h2
    exact this
  · rintro rfl
    rw [List.append_nil]
    exact trailsWith_append_self _ _

/-! ## `idxMap` facts -/

theorem idxMap_map_mark (n : Nat) (f : Nat → List Char → Pos) :
    ∀ (j : Nat) (gs : List (List Char)),
    (idxMap (fun i g => ⟨n, g, f i g⟩) j gs).map (fun mk => mk.mark) = gs
  | _, [] => rfl
  | j, g :: gs => by
    simp only [idxMap, List.map_cons]
    rw [idxMap_map_mark n f (j + 1) gs]

theorem idxMap_idx (n : Nat) (f : Nat → List Char → Pos) :
    ∀ (j : Nat) (gs : List (List Char)) (mk : PMark),
    mk ∈ idxMap (fun i g => ⟨n, g, f i g⟩) j gs → mk.idx = n
  | j, [], mk, h => by simp [idxMap] at h
  | j, g :: gs, mk, h => by
    simp only [idxMap, List.mem_cons] at h
    rcases h with rfl | h
    · rfl
    · exact idxMap_idx n f (j + 1) gs mk h

theorem idxMap_append (f : Nat → List Char → PMark) :
    ∀ (j : Nat) (xs ys : List (List Char)),
    idxMap f j (xs ++ ys) = idxMap f j xs ++ idxMap f (j + xs.length) ys
  | j, [], ys => by simp [idxMap]
  | j, x :: xs, ys => by
    simp only [List.cons_append, idxMap, List.length_cons, List.append_eq]
    rw [idxMap_append f (j + 1) xs ys]
    have harith : j + 1 + xs.length = j + (xs.length + 1) := by omega
    rw [harith]

/-- Matches strictly between the first and the last are classified `'I'`. -/
theorem idxMap_inner (line : List Char) (n k : Nat) :
    ∀ (j : Nat) (gs : List (List Char)), 1 ≤ j → j + gs.length ≤ k - 1 →
    idxMap (fun i g => ⟨n, g, pPos line k i g⟩) j gs =
      gs.map (fun g => ⟨n, g, Pos.I⟩)
  | j, [], _, _ => rfl
  | j, g :: gs, hj, hk => by
    simp only [idxMap, List.map_cons, List.length_cons] at hk ⊢
    have h0 : j ≠ 0 := by omega
    have h1 : j ≠ k - 1 := by omega
    rw [idxMap_inner line n k (j + 1) gs (by omega) (by omega)]
    simp [pPos, h0, h1]

/-! ## Characterization of `_preserve_line` -/

/-- A line with no match is one chunk with no marks. -/
theorem pLine_no_match {m line : List Char} (n : Nat)
    (h : findMatches m line = []) : pLine m line n = ([line], []) := by
  rw [pLine, h]

/-- A line equal to its single match is pure punctuation. -/
theorem pLine_isolated {m line : List Char} (n : Nat)
    (h : findMatches m line = [line]) :
    pLine m line n = ([], [⟨n, line, Pos.A⟩]) := by
  rw [pLine, h]
  simp

/-- General case: the chunks of `_preserve_line` are exactly the scanner
decomposition of the line, and the marks are the classified matches. -/
theorem pLine_general {m line : List Char} (n : Nat)
    {g1 c1 : List Char} {ps1 : List (List Char × List Char)}
    (hps : (linePairs m line).2 = (g1, c1) :: ps1)
    (hiso : ¬(ps1 = [] ∧ g1 = line)) :
    pLine m line n =
      ((linePairs m line).1 :: ((g1, c1) :: ps1).map Prod.snd,
        idxMap (fun i g => ⟨n, g, pPos line (1 + ps1.length) i g⟩) 0
          (g1 :: ps1.map Prod.fst)) := by
  have hmat : findMatches m line = g1 :: ps1.map Prod.fst := by
    rw [← linePairs_matches, hps]
    simp
  have hcond : ¬(ps1.map Prod.fst = [] ∧ g1 = line) := by
    rintro ⟨h1, h2⟩
    exact hiso ⟨List.map_eq_nil_iff.mp h1, h2⟩
  rw [pLine, hmat]
  simp only []
  rw [if_neg hcond]
  have hlen : (g1 :: ps1.map Prod.fst).length = 1 + ps1.length := by
    simp [Nat.add_comm]
  rw [hlen]
  have hmark : (idxMap (fun i g => ⟨n, g, pPos line (1 + ps1.length) i g⟩) 0
      (g1 :: ps1.map Prod.fst)).map (fun mk => mk.mark) =
      g1 :: ps1.map Prod.fst :=
    idxMap_map_mark n _ 0 _
  rw [hmark]
  have hok := linePairs_ok m line
  have hglue := linePairs_glue m line
  rw [hps] at hok hglue
  have halign := @pSplitLoop_align m ((g1, c1) :: ps1) (linePairs m line).1
    hok.1 hok.2
  rw [hglue] at halign
  have hfst : ((g1, c1) :: ps1).map Prod.fst = g1 :: ps1.map Prod.fst := by simp
  rw [hfst] at halign
  rw [halign]

/-! ## Well-behaved lines

`goodLine` is the well-formedness condition under which the encoding is
invertible: a line with no punctuation must be nonempty (`preserve` drops
empty chunks), and no two punctuation runs may be adjacent (an empty
chunk strictly between two matches is dropped by the filter, which
desynchronizes the restore walk). -/

/-- The line restores exactly: it is nonempty and no chunk strictly
between two matches is empty. -/
def goodLine (m : List Char) (line : List Char) : Bool :=
  if (linePairs m line).2.isEmpty then !line.isEmpty
  else (((linePairs m line).2.map Prod.snd).dropLast).all
    (fun c => !c.isEmpty)

theorem filter_cons_ne {x : List Char} (xs : List (List Char)) (h : x ≠ []) :
    (x :: xs).filter (fun c => !c.isEmpty) =
      x :: xs.filter (fun c => !c.isEmpty) := by
  rw [List.filter_cons, if_pos]
  simp [List.isEmpty_iff, h]

theorem filter_cons_nil (xs : List (List Char)) :
    (([] : List Char) :: xs).filter (fun c => !c.isEmpty) =
      xs.filter (fun c => !c.isEmpty) := by
  rw [List.filter_cons, if_neg]
  simp

theorem filter_all_ne {xs : List (List Char)} (h : ∀ x ∈ xs, x ≠ []) :
    xs.filter (fun c => !c.isEmpty) = xs := by
  refine List.filter_eq_self.mpr ?_
  intro a ha
  simp [List.isEmpty_iff, h a ha]

theorem glueTail_concat (ps : List (List Char × List Char))
    (g c : List Char) :
    glueTail (ps ++ [(g, c)]) = glueTail ps ++ g ++ c := by
  rw [glueTail_append]
  simp [glueTail, List.append_assoc]

theorem pPos_first {line g : List Char} {k : Nat} (hk : 2 ≤ k) :
    pPos line k 0 g = if leadsWith g line then Pos.B else Pos.I := by
  have : ¬(0 = k - 1) := by omega
  by_cases hB : leadsWith g line <;> simp [pPos, hB, this]

theorem pPos_last {line g : List Char} {k i : Nat} (hi : i = k - 1)
    (hne : i ≠ 0) :
    pPos line k i g = if trailsWith g line then Pos.E else Pos.I := by
  subst hi
  by_cases hE : trailsWith g line <;> simp [pPos, hne, hE]

theorem pPos_single (line g : List Char) :
    pPos line 1 0 g =
      if leadsWith g line then Pos.B
      else if trailsWith g line then Pos.E else Pos.I := by
  by_cases hB : leadsWith g line
  · simp [pPos, hB]
  · by_cases hE : trailsWith g line <;> simp [pPos, hB, hE]

/-- A single match equals the whole line iff both surrounding chunks are
empty. -/
theorem single_match_iff {c0 g c1 line : List Char}
    (h : c0 ++ (g ++ c1) = line) : g = line ↔ c0 = [] ∧ c1 = [] := by
  constructor
  · intro hg
    have hlen := congrArg List.length h
    rw [← hg] at hlen
    simp only [List.length_append] at hlen
    constructor
    · exact List.length_eq_zero.mp (by omega)
    · exact List.length_eq_zero.mp (by omega)
  · rintro ⟨rfl, rfl⟩
    simpa using h

/-- The restore walk re-emits one well-behaved line and moves on. -/
theorem restore_line (m : List Char) (line : List Char) (n : Nat)
    (C : List (List Char)) (M : List PMark)
    (hgood : goodLine m line = true)
    (hM : ∀ mk ∈ M, n < mk.idx) :
    pRestoreAux ((pLine m line n).1.filter (fun c => !c.isEmpty) ++ C)
        ((pLine m line n).2 ++ M) n =
      (pRestoreAux C M (n + 1)).map (fun r => line :: r) := by
  obtain ⟨c0, ps, hlp⟩ : ∃ c0 ps, linePairs m line = (c0, ps) :=
    ⟨(linePairs m line).1, (linePairs m line).2, rfl⟩
  have hfree : markFree m c0 = true := by
    have := (linePairs_ok m line).1
    rw [hlp] at this
    exact this
  have hpairs : ∀ p ∈ ps, p.1.any (isMark m) = true ∧ markFree m p.2 = true := by
    have := (linePairs_ok m line).2
    rw [hlp] at this
    exact this
  have hglue : glue c0 ps = line := by
    have := linePairs_glue m line
    rw [hlp] at this
    exact this
  have hmat : findMatches m line = ps.map Prod.fst := by
    have := linePairs_matches m line
    rw [hlp] at this
    exact this.symm
  have hgood2 : (if ps.isEmpty then !line.isEmpty
      else ((ps.map Prod.snd).dropLast).all (fun c => !c.isEmpty)) = true := by
    rw [goodLine, hlp] at hgood
    exact hgood
  rcases hps2 : ps with _ | ⟨⟨g1, c1⟩, ps1⟩
  · -- no match: the line is one chunk, kept because it is nonempty
    subst hps2
    have hmat0 : findMatches m line = [] := by simpa using hmat
    have hline : line ≠ [] := by
      rw [if_pos (by simp)] at hgood2
      simpa [List.isEmpty_iff] using hgood2
    rw [pLine_no_match n hmat0]
    simp only [List.nil_append]
    rw [filter_cons_ne [] hline]
    simp only [List.filter_nil, List.cons_append, List.nil_append]
    exact restore_finish line C M n hM
  · subst hps2
    have hg1 : g1.any (isMark m) = true := (hpairs (g1, c1) (by simp)).1
    have hc1free : markFree m c1 = true := (hpairs (g1, c1) (by simp)).2
    have hps : (linePairs m line).2 = (g1, c1) :: ps1 := by rw [hlp]
    by_cases hiso : ps1 = [] ∧ g1 = line
    · -- pure punctuation line
      have hmat1 : findMatches m line = [line] := by
        rw [hmat, hiso.1, hiso.2]
        simp
      rw [pLine_isolated n hmat1]
      simp only [List.filter_nil, List.nil_append, List.cons_append]
      exact restore_A line C M n
    · rw [pLine_general n hps hiso]
      rw [show (linePairs m line).1 = c0 from by rw [hlp]]
      dsimp only
      rcases List.eq_nil_or_concat' ps1 with rfl | ⟨mid, ⟨gk, ck⟩, rfl⟩
      · -- exactly one match, not the whole line
        have hline2 : c0 ++ g1 ++ c1 = line := by
          rw [← hglue]
          simp [glue, glueTail, List.append_assoc]
        have hnot : ¬(g1 = line) := fun h => hiso ⟨rfl, h⟩
        simp only [List.map_nil, List.map_cons, idxMap, List.length_nil,
          Nat.add_zero]
        rw [pPos_single line g1]
        by_cases hB : leadsWith g1 line
        · -- 'B': the chunk before the mark is empty
          have hc0 : c0 = [] := by
            have hlw : leadsWith g1 (c0 ++ g1 ++ c1) = true := by
              rw [hline2]; exact hB
            exact (leads_iff_nil hfree hg1).mp hlw
          have hc1 : c1 ≠ [] := by
            intro hc
            have hsm : c0 ++ (g1 ++ c1) = line := by
              rw [← hline2, List.append_assoc]
            exact hnot ((single_match_iff hsm).mpr ⟨hc0, hc⟩)
          rw [if_pos hB, hc0]
          rw [filter_cons_nil, filter_cons_ne [] hc1]
          simp only [List.filter_nil, List.cons_append, List.nil_append]
          rw [restore_B, restore_finish _ C M n hM]
          rw [show g1 ++ c1 = line from by rw [← hline2, hc0]; simp]
        · rw [if_neg hB]
          have hc0 : c0 ≠ [] := by
            intro hc
            apply hB
            rw [show line = g1 ++ c1 from by rw [← hline2, hc]; simp]
            exact leadsWith_self_append g1 c1
          by_cases hE : trailsWith g1 line
          · -- 'E': the chunk after the mark is empty
            have hc1 : c1 = [] := by
              have hlw : trailsWith g1 (c0 ++ g1 ++ c1) = true := by
                rw [hline2]; exact hE
              exact (trails_iff_nil hc1free hg1).mp hlw
            rw [if_pos hE, hc1]
            rw [filter_cons_ne _ hc0, filter_cons_nil]
            simp only [List.filter_nil, List.cons_append, List.nil_append]
            rw [restore_E]
            rw [show c0 ++ g1 = line from by rw [← hline2, hc1]; simp]
          · -- 'I': both chunks nonempty
            rw [if_neg hE]
            have hc1 : c1 ≠ [] := by
              intro hc
              apply hE
              rw [show line = c0 ++ g1 from by rw [← hline2, hc]; simp]
              exact trailsWith_append_self c0 g1
            rw [filter_cons_ne _ hc0, filter_cons_ne [] hc1]
            simp only [List.filter_nil, List.cons_append, List.nil_append]
            rw [restore_I, restore_finish _ C M n hM, hline2]
      · -- at least two matches
        have hlen : (mid ++ [(gk, ck)]).length = mid.length + 1 := by simp
        have hk2 : 2 ≤ 1 + (mid ++ [(gk, ck)]).length := by omega
        have hgkany : gk.any (isMark m) = true :=
          (hpairs (gk, ck) (by simp)).1
        have hckfree : markFree m ck = true :=
          (hpairs (gk, ck) (by simp)).2
        -- the interior chunks are nonempty
        have hint : c1 ≠ [] ∧ ∀ p ∈ mid, p.2 ≠ [] := by
          rw [if_neg (by simp)] at hgood2
          have hdl : ((((g1, c1) :: (mid ++ [(gk, ck)])).map Prod.snd).dropLast)
              = c1 :: mid.map Prod.snd := by
            simp only [List.map_cons, List.map_append, List.map_nil]
            rw [show (c1 :: (mid.map Prod.snd ++ [ck])) =
              (c1 :: mid.map Prod.snd) ++ [ck] by simp]
            exact List.dropLast_concat
          rw [hdl] at hgood2
          simp only [List.all_cons, Bool.and_eq_true, List.all_eq_true]
            at hgood2
          refine ⟨by simpa [List.isEmpty_iff] using hgood2.1, ?_⟩
          intro p hp
          have := hgood2.2 (p.2) (List.mem_map_of_mem Prod.snd hp)
          simpa [List.isEmpty_iff] using this
        -- the full line, fully associated to the left
        have hline : c0 ++ g1 ++ c1 ++ glueTail mid ++ gk ++ ck = line := by
          rw [← hglue]
          simp only [glue, glueTail_cons, glueTail_concat]
          simp [glueTail, List.append_assoc]
        -- decompose the classified marks
        have hmarks : idxMap (fun i g => ⟨n, g,
              pPos line (1 + (mid ++ [(gk, ck)]).length) i g⟩) 0
              (g1 :: (mid ++ [(gk, ck)]).map Prod.fst) =
            (⟨n, g1, pPos line (1 + (mid ++ [(gk, ck)]).length) 0 g1⟩ : PMark) ::
              (mid.map (fun p => (⟨n, p.1, Pos.I⟩ : PMark)) ++
               [⟨n, gk, pPos line (1 + (mid ++ [(gk, ck)]).length)
                  (1 + mid.length) gk⟩]) := by
          simp only [List.map_append, List.map_cons, List.map_nil, idxMap]
          rw [idxMap_append]
          have hmid : idxMap (fun i g => ⟨n, g,
              pPos line (1 + (mid ++ [(gk, ck)]).length) i g⟩) 1
              (mid.map Prod.fst) =
              (mid.map Prod.fst).map (fun g => (⟨n, g, Pos.I⟩ : PMark)) := by
            refine idxMap_inner line n _ 1 (mid.map Prod.fst) (by omega) ?_
            simp only [List.length_map, hlen]
            omega
          rw [hmid]
          simp only [List.length_map, idxMap, List.map_map]
          rfl
        rw [hmarks]
        have hPk : pPos line (1 + (mid ++ [(gk, ck)]).length) (1 + mid.length) gk
            = if trailsWith gk line then Pos.E else Pos.I := by
          refine pPos_last ?_ (by omega)
          rw [hlen]
          omega
        rw [hPk, pPos_first hk2]
        -- chunk list of the line
        have hchunks : ((g1, c1) :: (mid ++ [(gk, ck)])).map Prod.snd =
            c1 :: (mid.map Prod.snd ++ [ck]) := by simp
        rw [hchunks]
        by_cases hB : leadsWith g1 line
        · have hc0 : c0 = [] := by
            have hlw : leadsWith g1 (c0 ++ g1 ++ (c1 ++ glueTail mid ++ gk ++ ck))
                = true := by
              rw [show c0 ++ g1 ++ (c1 ++ glueTail mid ++ gk ++ ck) = line by
                rw [← hline]; simp [List.append_assoc]]
              exact hB
            exact (leads_iff_nil hfree hg1).mp hlw
          rw [if_pos hB, hc0]
          rw [filter_cons_nil, filter_cons_ne _ hint.1]
          by_cases hE : trailsWith gk line
          · -- B … E
            have hck : ck = [] := by
              have hlw : trailsWith gk ((c0 ++ g1 ++ c1 ++ glueTail mid) ++ gk
                  ++ ck) = true := by
                rw [show (c0 ++ g1 ++ c1 ++ glueTail mid) ++ gk ++ ck = line
                  from by rw [← hline]]
                exact hE
              exact (trails_iff_nil hckfree hgkany).mp hlw
            rw [if_pos hE, hck]
            rw [show (mid.map Prod.snd ++ [([] : List Char)]).filter
                (fun c => !c.isEmpty) = mid.map Prod.snd by
              rw [List.filter_append, filter_cons_nil]
              rw [filter_all_ne (fun x hx => by
                rcases List.mem_map.mp hx with ⟨p, hp, rfl⟩
                exact hint.2 p hp)]
              simp]
            simp only [List.cons_append, List.nil_append,
              List.singleton_append, List.append_assoc]
            rw [restore_B]
            have hch := restore_ichain n mid (g1 ++ c1) C
              ((⟨n, gk, Pos.E⟩ : PMark) :: M)
            simp only [List.cons_append, List.nil_append,
              List.singleton_append, List.append_assoc] at hch
            rw [hch, restore_E]
            rw [show (g1 ++ (c1 ++ glueTail mid)) ++ gk = line by
              rw [← hline, hc0, hck]; simp [List.append_assoc]]
          · -- B … I(last)
            have hck : ck ≠ [] := by
              intro hc
              apply hE
              rw [show line = (c0 ++ g1 ++ c1 ++ glueTail mid) ++ gk from by
                rw [← hline, hc]; simp]
              exact trailsWith_append_self _ _
            rw [if_neg hE]
            rw [show (mid.map Prod.snd ++ [ck]).filter (fun c => !c.isEmpty) =
                mid.map Prod.snd ++ [ck] from filter_all_ne (fun x hx => by
              rcases List.mem_append.mp hx with hx | hx
              · rcases List.mem_map.mp hx with ⟨p, hp, rfl⟩
                exact hint.2 p hp
              · simp only [List.mem_singleton] at hx
                subst hx; exact hck)]
            simp only [List.cons_append, List.nil_append,
              List.singleton_append, List.append_assoc]
            rw [restore_B]
            have hch := restore_ichain n (mid ++ [(gk, ck)]) (g1 ++ c1) C M
            simp only [List.map_append, List.map_cons, List.map_nil,
              List.cons_append, List.nil_append, List.singleton_append,
              List.append_assoc] at hch
            rw [hch]
            rw [restore_finish _ C M n hM]
            rw [show g1 ++ (c1 ++ glueTail (mid ++ [(gk, ck)])) = line by
              rw [← hline, hc0, glueTail_concat]
              simp [List.append_assoc]]
        · have hc0 : c0 ≠ [] := by
            intro hc
            apply hB
            rw [show line = g1 ++ (c1 ++ glueTail mid ++ gk ++ ck) from by
              rw [← hline, hc]; simp [List.append_assoc]]
            exact leadsWith_self_append _ _
          rw [if_neg hB]
          rw [filter_cons_ne _ hc0, filter_cons_ne _ hint.1]
          by_cases hE : trailsWith gk line
          · -- I(first) … E
            have hck : ck = [] := by
              have hlw : trailsWith gk ((c0 ++ g1 ++ c1 ++ glueTail mid) ++ gk
                  ++ ck) = true := by
                rw [show (c0 ++ g1 ++ c1 ++ glueTail mid) ++ gk ++ ck = line
                  from by rw [← hline]]
                exact hE
              exact (trails_iff_nil hckfree hgkany).mp hlw
            rw [if_pos hE, hck]
            rw [show (mid.map Prod.snd ++ [([] : List Char)]).filter
                (fun c => !c.isEmpty) = mid.map Prod.snd by
              rw [List.filter_append, filter_cons_nil]
              rw [filter_all_ne (fun x hx => by
                rcases List.mem_map.mp hx with ⟨p, hp, rfl⟩
                exact hint.2 p hp)]
              simp]
            simp only [List.cons_append, List.nil_append,
              List.singleton_append, List.append_assoc]
            have hch := restore_ichain n ((g1, c1) :: mid) c0
              C ((⟨n, gk, Pos.E⟩ : PMark) :: M)
            simp only [List.map_cons, List.cons_append, List.nil_append,
              List.singleton_append, List.append_assoc, glueTail_cons] at hch
            rw [hch, restore_E]
            rw [show (c0 ++ (g1 ++ (c1 ++ glueTail mid))) ++ gk = line by
              rw [← hline, hck]; simp [List.append_assoc]]
          · -- I(first) … I(last)
            have hck : ck ≠ [] := by
              intro hc
              apply hE
              rw [show line = (c0 ++ g1 ++ c1 ++ glueTail mid) ++ gk from by
                rw [← hline, hc]; simp]
              exact trailsWith_append_self _ _
            rw [if_neg hE]
            rw [show (mid.map Prod.snd ++ [ck]).filter (fun c => !c.isEmpty) =
                mid.map Prod.snd ++ [ck] from filter_all_ne (fun x hx => by
              rcases List.mem_append.mp hx with hx | hx
              · rcases List.mem_map.mp hx with ⟨p, hp, rfl⟩
                exact hint.2 p hp
              · simp only [List.mem_singleton] at hx
                subst hx; exact hck)]
            simp only [List.cons_append, List.nil_append,
              List.singleton_append, List.append_assoc]
            have hch := restore_ichain n ((g1, c1) :: (mid ++ [(gk, ck)]))
              c0 C M
            simp only [List.map_cons, List.map_append, List.map_nil,
              List.cons_append, List.nil_append, List.singleton_append,
              List.append_assoc, glueTail_cons, glueTail_concat] at hch
            rw [hch]
            rw [restore_finish _ C M n hM]
            rw [show c0 ++ (g1 ++ (c1 ++ (glueTail mid ++ (gk ++ ck)))) = line
              by rw [← hline]; simp [List.append_assoc]]

/-! ## The global walk -/

/-- Every mark of a line carries that line's index. -/
theorem pLine_marks_idx (m l : List Char) (n : Nat) :
    ∀ mk ∈ (pLine m l n).2, mk.idx = n := by
  intro mk hmk
  rcases h : findMatches m l with _ | ⟨g, gs⟩
  · rw [pLine_no_match n h] at hmk
    simp at hmk
  · by_cases hc : gs = [] ∧ g = l
    · have hmat : findMatches m l = [l] := by rw [h, hc.1, hc.2]
      rw [pLine_isolated n hmat] at hmk
      simp only [List.mem_singleton] at hmk
      subst hmk
      rfl
    · rw [pLine, h] at hmk
      dsimp only at hmk
      rw [if_neg hc] at hmk
      dsimp only at hmk
      exact idxMap_idx n _ 0 _ mk hmk

/-- Marks produced from line `n` on carry indices at least `n`. -/
theorem preserveAux_marks_lb (m : List Char) :
    ∀ (ls : List (List Char)) (n : Nat) (mk : PMark),
      mk ∈ (pPreserveAux m n ls).2 → n ≤ mk.idx
  | [], n, mk, h => by simp [pPreserveAux] at h
  | l :: ls, n, mk, h => by
    simp only [pPreserveAux, List.mem_append] at h
    rcases h with h | h
    · exact Nat.le_of_eq (pLine_marks_idx m l n mk h).symm
    · have := preserveAux_marks_lb m ls (n + 1) mk h
      omega

/-- Round trip of the enumeration loop, for well-behaved lines. -/
theorem restore_preserveAux (m : List Char) :
    ∀ (ls : List (List Char)) (n : Nat),
    (∀ l ∈ ls, goodLine m l = true) →
    pRestoreAux ((pPreserveAux m n ls).1.filter (fun c => !c.isEmpty))
        (pPreserveAux m n ls).2 n = some ls
  | [], n, _ => by
    simp [pPreserveAux, restore_nil]
  | l :: ls, n, h => by
    simp only [pPreserveAux]
    rw [List.filter_append]
    have hM : ∀ mk ∈ (pPreserveAux m (n + 1) ls).2, n < mk.idx := by
      intro mk hmk
      have := preserveAux_marks_lb m ls (n + 1) mk hmk
      omega
    rw [restore_line m l n _ _ (h l (by simp)) hM]
    rw [restore_preserveAux m ls (n + 1) (fun x hx => h x (by simp [hx]))]
    rfl

/-! ## Facts about `remove` -/

theorem markFree_subset {m : List Char} {s t : List Char}
    (hsub : ∀ c ∈ t, c ∈ s) (h : markFree m s = true) :
    markFree m t = true := by
  rw [markFree, List.all_eq_true] at h ⊢
  exact fun c hc => h c (hsub c hc)

theorem mem_of_mem_dropWhile {p : Char → Bool} :
    ∀ {l : List Char} {c : Char}, c ∈ l.dropWhile p → c ∈ l
  | [], c, h => by simp at h
  | a :: as, c, h => by
    by_cases ha : p a = true
    · rw [List.dropWhile_cons, if_pos ha] at h
      exact List.mem_cons_of_mem a (mem_of_mem_dropWhile h)
    · rw [List.dropWhile_cons, if_neg ha] at h
      exact h

theorem pyStrip_subset (s : List Char) : ∀ c ∈ pyStrip s, c ∈ s := by
  intro c hc
  rw [pyStrip, List.mem_reverse] at hc
  have h1 := mem_of_mem_dropWhile hc
  rw [List.mem_reverse] at h1
  exact mem_of_mem_dropWhile h1

/-- After substitution, no mark character remains, provided the
replacement character `' '` is not itself a configured mark. -/
theorem subOne_markFree {m : List Char} (hsp : isMark m ' ' = false)
    (line : List Char) : markFree m (subOne m line) = true := by
  rw [markFree, List.all_eq_true]
  intro c hc
  rw [subOne, List.mem_flatten] at hc
  obtain ⟨part, hpart, hcin⟩ := hc
  rw [List.mem_map] at hpart
  obtain ⟨t, ht, rfl⟩ := hpart
  have htok := scanAux_tokOK m line (ScanSt.idle [])
    (by simp [stOK, markFree]) t ht
  cases t with
  | txt s =>
    simp only at hcin
    rw [tokOK, markFree, List.all_eq_true] at htok
    exact htok c hcin
  | mat g =>
    simp only [List.mem_singleton] at hcin
    subst hcin
    simp only [Bool.not_eq_eq_eq_not, Bool.not_true]
    exact hsp

/-- With no mark character inside, the scanner sees only text. -/
theorem scanAux_no_mat {m : List Char} :
    ∀ (s p : List Char), markFree m s = true →
    ∀ t ∈ scanAux m (ScanSt.idle p) s, ∃ u, t = Tok.txt u
  | [], p, _, t, ht => by
    simp only [scanAux, List.mem_singleton] at ht
    exact ⟨p, ht⟩
  | c :: rest, p, h, t, ht => by
    have hc : isMark m c = false := by
      rw [markFree, List.all_cons, Bool.and_eq_true] at h
      simpa using h.1
    have hrest : markFree m rest = true := by
      rw [markFree, List.all_cons, Bool.and_eq_true] at h
      exact h.2
    rw [scanAux, hc] at ht
    simp only [Bool.false_eq_true, if_false] at ht
    by_cases hs : pySpace c
    · rw [if_pos hs] at ht
      exact scanAux_no_mat rest (p ++ [c]) hrest t ht
    · rw [if_neg hs] at ht
      rcases List.mem_cons.mp ht with rfl | ht2
      · exact ⟨p ++ [c], rfl⟩
      · exact scanAux_no_mat rest [] hrest t ht2

/-- Substitution does nothing on a mark-free line. -/
theorem subOne_id {m line : List Char} (h : markFree m line = true) :
    subOne m line = line := by
  have hall := scanAux_no_mat line [] h
  have hmap : (scanLine m line).map (fun t => match t with
      | Tok.txt s => s
      | Tok.mat _ => [' ']) = (scanLine m line).map tokChars := by
    refine List.map_eq_map_iff.mpr ?_
    intro t ht
    obtain ⟨u, rfl⟩ := hall t ht
    rfl
  rw [subOne, hmap]
  exact scanLine_flat m line

theorem dropWhile_head_false (p : Char → Bool) :
    ∀ (l : List Char) (c : Char) (cs : List Char),
    l.dropWhile p = c :: cs → p c = false
  | [], c, cs, h => by simp at h
  | a :: as, c, cs, h => by
    by_cases ha : p a = true
    · rw [List.dropWhile_cons, if_pos ha] at h
      exact dropWhile_head_false p as c cs h
    · rw [List.dropWhile_cons, if_neg ha] at h
      cases h
      simpa using ha

/-- `strip` is idempotent. -/
theorem pyStrip_idem (s : List Char) : pyStrip (pyStrip s) = pyStrip s := by
  have hdW : ∀ t : List Char,
      (((t.dropWhile pySpace).reverse.dropWhile pySpace).reverse).dropWhile
        pySpace =
      ((t.dropWhile pySpace).reverse.dropWhile pySpace).reverse := by
    intro t
    rcases hv : ((t.dropWhile pySpace).reverse.dropWhile pySpace).reverse
      with _ | ⟨c, cs⟩
    · simp
    · -- the head survives from `dropWhile pySpace t`, so it is not a space
      have hpre : ∃ u, t.dropWhile pySpace = (c :: cs) ++ u := by
        have := congrArg List.reverse hv
        simp only [List.reverse_reverse] at this
        obtain ⟨u, hu⟩ : ∃ u,
            (t.dropWhile pySpace).reverse = u ++ (c :: cs).reverse := by
          refine ⟨(t.dropWhile pySpace).reverse.takeWhile pySpace, ?_⟩
          rw [← this]
          exact (List.takeWhile_append_dropWhile pySpace
            (t.dropWhile pySpace).reverse).symm
        refine ⟨u.reverse, ?_⟩
        have := congrArg List.reverse hu
        simpa using this
      obtain ⟨u, hu⟩ := hpre
      have hc : pySpace c = false := by
        have : t.dropWhile pySpace = c :: (cs ++ u) := by simpa using hu
        exact dropWhile_head_false pySpace t c (cs ++ u) this
      rw [List.dropWhile_cons, hc]
      simp
  rw [pyStrip, pyStrip]
  rw [hdW s]
  rw [show ((s.dropWhile pySpace).reverse.dropWhile pySpace).reverse.reverse
    = (s.dropWhile pySpace).reverse.dropWhile pySpace from by simp]
  rw [List.dropWhile_idempotent]

/-- Idempotence of `remove` on one line, for alphabets in which the
space character is not a mark. -/
theorem pRemoveLine_idem {m : List Char} (hsp : isMark m ' ' = false)
    (l : List Char) :
    pRemoveLine m (pRemoveLine m l) = pRemoveLine m l := by
  rw [pRemoveLine, pRemoveLine]
  have h1 : markFree m (subOne m l) = true := subOne_markFree hsp l
  have h2 : markFree m (pyStrip (subOne m l)) = true :=
    markFree_subset (pyStrip_subset _) h1
  rw [subOne_id h2]
  exact pyStrip_idem _

/-! ## Chunks never contain a mark -/

/-- A line without any match contains no mark character. -/
theorem markFree_of_no_match {m line : List Char}
    (h : findMatches m line = []) : markFree m line = true := by
  have htxt : ∀ t ∈ scanLine m line, ∃ u, t = Tok.txt u := by
    intro t ht
    cases t with
    | txt u => exact ⟨u, rfl⟩
    | mat g =>
      exfalso
      have : g ∈ findMatches m line := by
        rw [findMatches, List.mem_filterMap]
        exact ⟨Tok.mat g, ht, rfl⟩
      rw [h] at this
      simp at this
  rw [← scanLine_flat m line, flat, markFree, List.all_eq_true]
  intro c hc
  rw [List.mem_flatten] at hc
  obtain ⟨part, hpart, hcin⟩ := hc
  rw [List.mem_map] at hpart
  obtain ⟨t, ht, rfl⟩ := hpart
  obtain ⟨u, rfl⟩ := htxt t ht
  have htok := scanAux_tokOK m line (ScanSt.idle [])
    (by simp [stOK, markFree]) _ ht
  rw [tokOK, markFree, List.all_eq_true] at htok
  exact htok c hcin

/-- Every chunk of `_preserve_line` is mark-free. -/
theorem pLine_chunks_markFree (m l : List Char) (n : Nat) :
    ∀ c ∈ (pLine m l n).1, markFree m c = true := by
  intro c hc
  have hok := linePairs_ok m l
  rcases h : (linePairs m l).2 with _ | ⟨⟨g1, c1⟩, ps1⟩
  · have hmat : findMatches m l = [] := by
      rw [← linePairs_matches, h]
      rfl
    rw [pLine_no_match n hmat] at hc
    simp only [List.mem_singleton] at hc
    subst hc
    exact markFree_of_no_match hmat
  · by_cases hiso : ps1 = [] ∧ g1 = l
    · have hmat : findMatches m l = [l] := by
        rw [← linePairs_matches, h, hiso.1, hiso.2]
        rfl
      rw [pLine_isolated n hmat] at hc
      simp at hc
    · rw [pLine_general n h hiso] at hc
      dsimp only at hc
      rcases List.mem_cons.mp hc with rfl | hc2
      · exact hok.1
      · rw [List.mem_map] at hc2
        obtain ⟨p, hp, rfl⟩ := hc2
        rw [h] at hok
        exact (hok.2 p hp).2

theorem preserveAux_chunks_markFree (m : List Char) :
    ∀ (ls : List (List Char)) (n : Nat) (c : List Char),
      c ∈ (pPreserveAux m n ls).1 → markFree m c = true
  | [], n, c, h => by simp [pPreserveAux] at h
  | l :: ls, n, c, h => by
    simp only [pPreserveAux, List.mem_append] at h
    rcases h with h | h
    · exact pLine_chunks_markFree m l n c h
    · exact preserveAux_chunks_markFree m ls (n + 1) c h

/-! ## The empty alphabet and empty lines -/

/-- The empty alphabet never matches. -/
theorem findMatches_empty_alphabet (line : List Char) :
    findMatches [] line = [] :=
  have h : markFree [] line = true := by
    rw [markFree, List.all_eq_true]
    intro c _
    rfl
  by
  rcases hm : findMatches [] line with _ | ⟨g, gs⟩
  · rfl
  · exfalso
    have hok := (linePairs_ok [] line).2
    have hmat := linePairs_matches [] line
    rw [hm] at hmat
    rcases hps : (linePairs [] line).2 with _ | ⟨p, ps⟩
    · rw [hps] at hmat
      simp at hmat
    · have hp := (hok p (by rw [hps]; simp)).1
      rw [List.any_eq_true] at hp
      obtain ⟨c, _, hc⟩ := hp
      simp [isMark] at hc

theorem preserveAux_empty_alphabet :
    ∀ (ls : List (List Char)) (n : Nat),
    pPreserveAux [] n ls = (ls, [])
  | [], _ => rfl
  | l :: ls, n => by
    simp only [pPreserveAux,
      pLine_no_match n (findMatches_empty_alphabet l),
      preserveAux_empty_alphabet ls (n + 1)]
    simp

/-- An empty line yields one empty chunk and no mark. -/
theorem pLine_empty (m : List Char) (n : Nat) :
    pLine m [] n = ([[]], []) := by
  refine pLine_no_match n ?_
  rfl

/-- The enumeration loop distributes over append, shifting the index. -/
theorem preserveAux_append (m : List Char) :
    ∀ (xs ys : List (List Char)) (n : Nat),
    pPreserveAux m n (xs ++ ys) =
      ((pPreserveAux m n xs).1 ++ (pPreserveAux m (n + xs.length) ys).1,
       (pPreserveAux m n xs).2 ++ (pPreserveAux m (n + xs.length) ys).2)
  | [], ys, n => by simp [pPreserveAux]
  | x :: xs, ys, n => by
    simp only [List.cons_append, pPreserveAux, List.append_eq,
      preserveAux_append m xs ys (n + 1), List.length_cons]
    have harith : n + 1 + xs.length = n + (xs.length + 1) := by omega
    rw [harith]
    simp [List.append_assoc]

/-! ## Configuration extensionality -/

/-- The scanner depends on the alphabet only through membership. -/
theorem scanAux_congr {m1 m2 : List Char}
    (h : ∀ c, isMark m1 c = isMark m2 c) :
    ∀ (s : List Char) (st : ScanSt), scanAux m1 st s = scanAux m2 st s
  | [], ScanSt.idle p => rfl
  | [], ScanSt.run a => rfl
  | [], ScanSt.trail a => rfl
  | c :: rest, ScanSt.idle p => by
    rw [scanAux, scanAux, h c]
    by_cases hm : isMark m2 c
    · rw [if_pos hm, if_pos hm, scanAux_congr h rest]
    · rw [if_neg hm, if_neg hm]
      by_cases hs : pySpace c
      · rw [if_pos hs, if_pos hs, scanAux_congr h rest]
      · rw [if_neg hs, if_neg hs, scanAux_congr h rest]
  | c :: rest, ScanSt.run a => by
    rw [scanAux, scanAux, h c]
    by_cases hm : isMark m2 c
    · rw [if_pos hm, if_pos hm, scanAux_congr h rest]
    · rw [if_neg hm, if_neg hm]
      by_cases hs : pySpace c
      · rw [if_pos hs, if_pos hs, scanAux_congr h rest]
      · rw [if_neg hs, if_neg hs, scanAux_congr h rest]
  | c :: rest, ScanSt.trail a => by
    rw [scanAux, scanAux, h c]
    by_cases hm : isMark m2 c
    · rw [if_pos hm, if_pos hm, scanAux_congr h rest]
    · rw [if_neg hm, if_neg hm]
      by_cases hs : pySpace c
      · rw [if_pos hs, if_pos hs, scanAux_congr h rest]
      · rw [if_neg hs, if_neg hs, scanAux_congr h rest]

theorem isMark_congr {m1 m2 : List Char}
    (h : (∀ c ∈ m1, c ∈ m2) ∧ (∀ c ∈ m2, c ∈ m1)) :
    ∀ c, isMark m1 c = isMark m2 c := by
  intro c
  have e1 : isMark m1 c = true ↔ c ∈ m1 := List.elem_iff
  have e2 : isMark m2 c = true ↔ c ∈ m2 := List.elem_iff
  cases hb1 : isMark m1 c with
  | true => exact (e2.mpr (h.1 c (e1.mp hb1))).symm
  | false =>
    cases hb2 : isMark m2 c with
    | true =>
      rw [e1.mpr (h.2 c (e2.mp hb2))] at hb1
      exact absurd hb1 (by simp)
    | false => rfl

theorem pLine_congr {m1 m2 : List Char}
    (h : ∀ c, isMark m1 c = isMark m2 c) (l : List Char) (n : Nat) :
    pLine m1 l n = pLine m2 l n := by
  rw [pLine, pLine, findMatches, findMatches, scanLine, scanLine,
    scanAux_congr h]

theorem preserveAux_congr {m1 m2 : List Char}
    (h : ∀ c, isMark m1 c = isMark m2 c) :
    ∀ (ls : List (List Char)) (n : Nat),
    pPreserveAux m1 n ls = pPreserveAux m2 n ls
  | [], _ => rfl
  | l :: ls, n => by
    simp only [pPreserveAux, pLine_congr h l n,
      preserveAux_congr h ls (n + 1)]

/-! ## The claims -/

/-- Claim C1, counterexample: the round-trip law fails as stated.  An
empty line is dropped by `preserve` (restoring gives `[]`, not `[""]`),
and on `"! !"` — two adjacent punctuation runs — every chunk of the line
is empty, so restore runs out of chunks and fails entirely. -/
theorem c1_counterexample :
    pRestore (pPreserve defaultMarks [[]]).1 (pPreserve defaultMarks [[]]).2 ≠
        some [[]] ∧
      pRestore (pPreserve defaultMarks [toL "! !"]).1
        (pPreserve defaultMarks [toL "! !"]).2 ≠ some [toL "! !"] := by
  constructor
  · have h : pPreserve defaultMarks [[]] = ([], []) := by decide
    rw [h, pRestore, restore_nil]
    simp
  · have h : pPreserve defaultMarks [toL "! !"] =
        ([], [⟨0, toL "! ", Pos.B⟩, ⟨0, toL "!", Pos.E⟩]) := by decide
    rw [h, pRestore]
    simp [pRestoreAux]

/-- Claim C1, amended: for every literal alphabet — one whose compiled
character class is exactly set membership — the round-trip law
`restore (preserve L) = L` holds for every sequence of well-behaved
lines: lines that are nonempty and have no empty chunk strictly
between two punctuation runs (`goodLine`, stated over the exact
Unicode whitespace set of `\s`).  Inputs violating this (an empty
line, adjacent runs as in `"! !"`, or runs separated only by
whitespace such as no-break space in `"a.\u00A0.b"`) are exactly the
ones on which the code loses or garbles lines. -/
theorem c1_roundtrip (m : List Char) (L : List (List Char))
    (hm : literalClass m = true)
    (h : ∀ l ∈ L, goodLine m l = true) :
    (∃ f, compileClass m = some f ∧ ∀ c, f c = isMark m c) ∧
    pRestore (pPreserve m L).1 (pPreserve m L).2 = some L :=
  ⟨compileClass_literal m hm, restore_preserveAux m L 0 h⟩

/-- Witness for C1 at a concrete three-line input. -/
theorem c1_roundtrip_witness :
    (literalClass defaultMarks = true ∧
      ∀ l ∈ [toL "hello, my world!", toL "!!!", toL "Hi, there."],
        goodLine defaultMarks l = true) ∧
    ((∃ f, compileClass defaultMarks = some f ∧
        ∀ c, f c = isMark defaultMarks c) ∧
      pRestore
          (pPreserve defaultMarks
            [toL "hello, my world!", toL "!!!", toL "Hi, there."]).1
          (pPreserve defaultMarks
            [toL "hello, my world!", toL "!!!", toL "Hi, there."]).2 =
        some [toL "hello, my world!", toL "!!!", toL "Hi, there."]) :=
  ⟨⟨by decide, by decide⟩, c1_roundtrip defaultMarks _ (by decide) (by decide)⟩

/-- Claim C2: on `"hello, my world!"` with the default alphabet,
`preserve` yields chunks `["hello", "my world"]` and two marks at line 0
— `", "` (comma plus trailing space) tagged Inner and `"!"` tagged End —
and `restore` of that output reproduces the line. -/
theorem c2_position_correctness :
    pPreserve defaultMarks [toL "hello, my world!"] =
      ([toL "hello", toL "my world"],
        [⟨0, toL ", ", Pos.I⟩, ⟨0, toL "!", Pos.E⟩]) ∧
    pRestore [toL "hello", toL "my world"]
        [⟨0, toL ", ", Pos.I⟩, ⟨0, toL "!", Pos.E⟩] =
      some [toL "hello, my world!"] := by
  refine ⟨by decide, ?_⟩
  rw [pRestore]
  simp [pRestoreAux, toL]

/-- Claim C3, counterexample: construction from the empty string does
NOT succeed.  The marks setter interpolates the configuration into the
pattern verbatim, so the empty configuration yields the class `[]`,
which is a regex error ("unterminated character set"): compilation
fails, modelled `none`. -/
theorem c3_counterexample : compileClass [] = none := rfl

/-- Claim C3, amended: constructing the processor from the empty
string fails — `re.compile` raises `re.error` on the class `[]` — so
the claimed empty-alphabet behaviour of `preserve` is unreachable.
Every nonempty alphabet free of the class metacharacters constructs
successfully, and its matcher is exactly membership in the configured
set. -/
theorem c3_empty_alphabet (m : List Char) (hm : literalClass m = true) :
    compileClass [] = none ∧
    ∃ f, compileClass m = some f ∧ ∀ c, f c = isMark m c :=
  ⟨rfl, compileClass_literal m hm⟩

/-- Witness for C3 at the default alphabet. -/
theorem c3_empty_alphabet_witness :
    literalClass defaultMarks = true ∧
    (compileClass [] = none ∧
      ∃ f, compileClass defaultMarks = some f ∧
        ∀ c, f c = isMark defaultMarks c) :=
  ⟨by decide, c3_empty_alphabet defaultMarks (by decide)⟩

/-- Claim C4: `restore` fails — returns `none`, the typed failure of the
embedding, with no partial output — whenever the pending mark references
a line index unreachable by the walk: strictly below the current counter
or beyond what consuming every remaining chunk can reach. -/
theorem c4_restore_unreachable (text : List (List Char)) (mk : PMark)
    (ms : List PMark) (n : Nat)
    (h : mk.idx < n ∨ n + text.length < mk.idx) :
    pRestoreAux text (mk :: ms) n = none := by
  induction text generalizing n with
  | nil =>
    refine restore_stuck mk ms n ?_
    simp only [List.length_nil] at h
    omega
  | cons t ts ih =>
    have hne : mk.idx ≠ n := by
      simp only [List.length_cons] at h
      omega
    rw [restore_skip t ts mk ms n hne]
    have hih : pRestoreAux ts (mk :: ms) (n + 1) = none := by
      apply ih
      simp only [List.length_cons] at h
      rcases h with h | h
      · exact Or.inl (by omega)
      · exact Or.inr (by omega)
    rw [hih]
    rfl

/-- Witness for C4: a mark pointing at line 5 with a single chunk. -/
theorem c4_restore_unreachable_witness :
    ((⟨5, toL ".", Pos.E⟩ : PMark).idx < 0 ∨
      0 + [toL "a"].length < (⟨5, toL ".", Pos.E⟩ : PMark).idx) ∧
    pRestoreAux [toL "a"] [⟨5, toL ".", Pos.E⟩] 0 = none :=
  ⟨by decide, c4_restore_unreachable [toL "a"] ⟨5, toL ".", Pos.E⟩ [] 0
    (by decide)⟩

/-- Claim C5: for a literal alphabet — one whose compiled class is
exactly set membership, so the scanner is the compiled pattern — a
line that is exactly one maximal punctuation run (its single match
spans the whole line) contributes zero chunks and one `Isolated` mark
holding the full line, and `restore` emits that mark text as one
standalone output line. -/
theorem c5_isolated (m line : List Char) (n : Nat)
    (hm : literalClass m = true)
    (h : findMatches m line = [line]) :
    (∃ f, compileClass m = some f ∧ ∀ c, f c = isMark m c) ∧
    pLine m line n = ([], [⟨n, line, Pos.A⟩]) ∧
    ∀ (C : List (List Char)) (M : List PMark),
      pRestoreAux C (⟨n, line, Pos.A⟩ :: M) n =
        (pRestoreAux C M (n + 1)).map (fun r => line :: r) :=
  ⟨compileClass_literal m hm,
    pLine_isolated n h, fun C M => restore_A line C M n⟩

/-- Witness for C5 on the pure-punctuation line `"!!"`. -/
theorem c5_isolated_witness :
    (literalClass defaultMarks = true ∧
      findMatches defaultMarks (toL "!!") = [toL "!!"]) ∧
    pLine defaultMarks (toL "!!") 0 = ([], [⟨0, toL "!!", Pos.A⟩]) ∧
    pRestoreAux [] [(⟨0, toL "!!", Pos.A⟩ : PMark)] 0 =
      (pRestoreAux [] [] (0 + 1)).map (fun r => toL "!!" :: r) :=
  ⟨⟨by decide, by decide⟩,
    (c5_isolated defaultMarks (toL "!!") 0 (by decide) (by decide)).2.1,
    (c5_isolated defaultMarks (toL "!!") 0 (by decide) (by decide)).2.2 [] []⟩

/-- Claim C6, counterexample: `remove` is not idempotent for every
alphabet.  With marks `". "` (a space is a configured mark) the line
`"a.\t.b"` becomes `"a  b"` after one removal and `"a b"` after two. -/
theorem c6_counterexample :
    pRemove (toL ". ") (pRemove (toL ". ") [toL "a.\t.b"]) ≠
      pRemove (toL ". ") [toL "a.\t.b"] := by decide

/-- Claim C6, amended: for every alphabet in which the space
character itself is not a configured mark — in particular the default
alphabet — `remove` is idempotent on every input; `remove` is a total
function, so it never fails.  Only a space mark breaks idempotence,
because each substitution writes a space back into the line; other
whitespace marks are harmless (the substitution result never contains
them). -/
theorem c6_remove_idem (m : List Char) (text : List (List Char))
    (hns : (' ' : Char) ∉ m) :
    pRemove m (pRemove m text) = pRemove m text := by
  have hsp : isMark m ' ' = false := by
    rw [isMark]
    cases he : m.contains ' ' with
    | false => rfl
    | true => exact absurd (List.elem_iff.mp he) hns
  show (text.map (pRemoveLine m)).map (pRemoveLine m) = text.map (pRemoveLine m)
  rw [List.map_map]
  refine List.map_eq_map_iff.mpr ?_
  intro l _
  exact pRemoveLine_idem hsp l

/-- Witness for C6 with the default alphabet. -/
theorem c6_remove_idem_witness :
    ((' ' : Char) ∉ defaultMarks) ∧
    pRemove defaultMarks (pRemove defaultMarks [toL "hello, world!"]) =
      pRemove defaultMarks [toL "hello, world!"] :=
  ⟨by decide, c6_remove_idem defaultMarks _ (by decide)⟩

/-- Claim C7, counterexample: chunks are not whitespace-trimmed — the
line `"a "` has no match, so its chunk is the whole line `"a "`, which
differs from its stripped form.  Moreover the mark-free part cannot
hold for every configuration string: with marks `"a-z"` the class is a
range that does not match the configured character `-`, so `-` can
survive into a chunk. -/
theorem c7_counterexample :
    ((pPreserve defaultMarks [toL "a "]).1 = [toL "a "] ∧
      pyStrip (toL "a ") ≠ toL "a ") ∧
    (('-' : Char) ∈ toL "a-z" ∧ classMatches (toL "a-z") '-' = false) := by
  decide

/-- Claim C7, amended: for a literal alphabet — one whose compiled
class is exactly set membership — every chunk returned by `preserve`
is nonempty and contains no configured mark character.  The trimming
part of the claim is false (whitespace not adjacent to any mark stays
in the chunk), and for alphabets with class metacharacters a chunk can
contain a configured character (see the counterexample). -/
theorem c7_chunk_postcondition (m : List Char) (text : List (List Char))
    (hm : literalClass m = true)
    (c : List Char) (hc : c ∈ (pPreserve m text).1) :
    (∃ f, compileClass m = some f ∧ ∀ c0, f c0 = isMark m c0) ∧
    c ≠ [] ∧ markFree m c = true := by
  refine ⟨compileClass_literal m hm, ?_, ?_⟩
  · rw [pPreserve] at hc
    dsimp only at hc
    rw [List.mem_filter] at hc
    intro hnil
    have h2 := hc.2
    rw [hnil] at h2
    simp at h2
  · rw [pPreserve] at hc
    dsimp only at hc
    rw [List.mem_filter] at hc
    exact preserveAux_chunks_markFree m text 0 c hc.1

/-- Witness for C7 on the chunk `"hello"`. -/
theorem c7_chunk_postcondition_witness :
    (literalClass defaultMarks = true ∧
      toL "hello" ∈ (pPreserve defaultMarks [toL "hello, my world!"]).1) ∧
    ((∃ f, compileClass defaultMarks = some f ∧
        ∀ c0, f c0 = isMark defaultMarks c0) ∧
      toL "hello" ≠ [] ∧ markFree defaultMarks (toL "hello") = true) :=
  ⟨⟨by decide, by decide⟩,
    c7_chunk_postcondition defaultMarks [toL "hello, my world!"] (by decide) _
      (by decide)⟩

/-- Claim C8, counterexample: the matcher is NOT determined by the
character set of the configuration string.  The configurations `"a-z"`
and `"az-"` consist of the same three characters, but interpolated
verbatim into the class the first is the range `[a-z]` and the second
the literal set `{a, z, -}`: they disagree on `b`.  Since the marks
setter stores `''.join(set(value))`, whose order varies with the hash
seed, even one configuration string can yield different matchers
across runs. -/
theorem c8_counterexample :
    ((∀ c ∈ toL "a-z", c ∈ toL "az-") ∧ (∀ c ∈ toL "az-", c ∈ toL "a-z")) ∧
    classMatches (toL "a-z") 'b' ≠ classMatches (toL "az-") 'b' := by
  decide

/-- Claim C8, amended: for literal alphabets — free of the class
metacharacters, so verbatim interpolation means set membership — two
configuration strings with the same character set yield identical
matchers and identical `preserve` and `remove` behaviour on every
input.  With metacharacters the set does not determine the matcher
(see the counterexample). -/
theorem c8_marks_set_determinism (m1 m2 : List Char)
    (text : List (List Char))
    (hl1 : literalClass m1 = true) (hl2 : literalClass m2 = true)
    (h : (∀ c ∈ m1, c ∈ m2) ∧ (∀ c ∈ m2, c ∈ m1)) :
    (∀ c, classMatches m1 c = classMatches m2 c) ∧
    pPreserve m1 text = pPreserve m2 text ∧
      pRemove m1 text = pRemove m2 text := by
  have hc := isMark_congr h
  refine ⟨?_, ?_, ?_⟩
  · intro c
    obtain ⟨f1, hf1, he1⟩ := compileClass_literal m1 hl1
    obtain ⟨f2, hf2, he2⟩ := compileClass_literal m2 hl2
    rw [classMatches, classMatches, hf1, hf2]
    dsimp only
    rw [he1 c, he2 c, hc c]
  · rw [pPreserve, pPreserve, preserveAux_congr hc]
  · show text.map (pRemoveLine m1) = text.map (pRemoveLine m2)
    refine List.map_eq_map_iff.mpr ?_
    intro l _
    rw [pRemoveLine, pRemoveLine, subOne, subOne, scanLine, scanLine,
      scanAux_congr hc]

/-- Witness for C8 on reordered, duplicated literal alphabets. -/
theorem c8_marks_set_determinism_witness :
    (literalClass (toL ".,!") = true ∧ literalClass (toL "!,,.") = true ∧
      (∀ c ∈ toL ".,!", c ∈ toL "!,,.") ∧
      (∀ c ∈ toL "!,,.", c ∈ toL ".,!")) ∧
    ((∀ c, classMatches (toL ".,!") c = classMatches (toL "!,,.") c) ∧
      pPreserve (toL ".,!") [toL "a,b."] =
        pPreserve (toL "!,,.") [toL "a,b."] ∧
      pRemove (toL ".,!") [toL "a,b."] =
        pRemove (toL "!,,.") [toL "a,b."]) :=
  ⟨⟨by decide, by decide, by decide, by decide⟩,
    c8_marks_set_determinism _ _ _ (by decide) (by decide) (by decide)⟩

/-- Claim C9, counterexample: restoring preserve's output does not in
general yield one fewer line per empty input line — when a later line
carries marks, their indices still count the dropped line, the walk
desynchronizes and restore fails outright. -/
theorem c9_counterexample :
    pRestore (pPreserve defaultMarks [toL "a.", [], toL "b."]).1
      (pPreserve defaultMarks [toL "a.", [], toL "b."]).2 = none := by
  have h : pPreserve defaultMarks [toL "a.", [], toL "b."] =
      ([toL "a", toL "b"],
        [⟨0, toL ".", Pos.E⟩, ⟨2, toL ".", Pos.E⟩]) := by decide
  rw [h, pRestore]
  simp [pRestoreAux]

/-- Claim C9, amended: an empty input line contributes no chunk and no
mark record — `preserve` of `pre ++ [""] ++ post` is exactly the chunks
and marks of `pre` followed by those of `post`, the latter with line
indices still offset by the dropped line (hence the restore-length
consequence of the original claim fails; see the counterexample). -/
theorem c9_empty_line_dropped (m : List Char) (pre post : List (List Char)) :
    pPreserve m (pre ++ [[]] ++ post) =
      ((pPreserveAux m 0 pre).1.filter (fun c => !c.isEmpty) ++
        (pPreserveAux m (pre.length + 1) post).1.filter (fun c => !c.isEmpty),
       (pPreserveAux m 0 pre).2 ++ (pPreserveAux m (pre.length + 1) post).2) := by
  rw [pPreserve]
  rw [show pre ++ [[]] ++ post = pre ++ ([[]] ++ post) from by
    simp [List.append_assoc]]
  rw [preserveAux_append m pre ([[]] ++ post) 0]
  rw [show ([[]] ++ post : List (List Char)) = [] :: post from rfl]
  rw [show pPreserveAux m (0 + pre.length) ([] :: post) =
      (([[]] : List (List Char)) ++ (pPreserveAux m (0 + pre.length + 1) post).1,
        [] ++ (pPreserveAux m (0 + pre.length + 1) post).2) from by
    rw [pPreserveAux, pLine_empty]]
  simp only [List.nil_append, Nat.zero_add]
  rw [List.filter_append]
  simp only [List.singleton_append, filter_cons_nil]

/-- Claim C10: `restore` with an empty mark sequence is the identity:
every chunk becomes one output line, in order. -/
theorem c10_restore_no_marks (text : List (List Char)) :
    pRestore text [] = some text :=
  restore_nil text 0

end Punct
